import Mathlib

/-!
Verification of the streaming voice-session manager of lingua-pratikar.

The definitions below are a shallow embedding of the TypeScript source:
`cleanText`, the `setMessages` transcript updater, the turn counter and
`canComplete` gate of `LiveSession`; the `onaudioprocess` handler
installation and mic gating of the same component; the watchdog
`useEffect` over the `isThinking` flag; the playback scheduling done in
`onmessage` (`nextStartTime`, `sourcesRef`); `handleSessionComplete` of
`App`; and `isUnlocked` / `isCompleted` of `LessonMap`.
-/

namespace LinguaPratikar

/-! ### Transcript assembly: `cleanText` and the `setMessages` updater -/

/-- The reasoning-marker at the start of internal model "thought" text. -/
def thoughtMarker : String := "🧠 thought"

/-- The delimiter after which thought-prefixed model text becomes visible. -/
def thoughtDelim : String := "<ctrl95>"

/-- The text after the first occurrence of the (non-empty) separator, or
`none` when the separator does not occur. For a non-empty `sep` this is
exactly JS `s.split(sep).slice(1).join(sep)`, with occurrence of `sep`
equivalent to `s.split(sep).length > 1`. -/
def afterFirst (sep : List Char) : List Char → Option (List Char)
  | [] => none
  | c :: rest =>
      if sep.isPrefixOf (c :: rest) then some (List.drop sep.length (c :: rest))
      else afterFirst sep rest

/-- JS `trim`: drop leading and trailing whitespace. -/
def trimChars (l : List Char) : List Char :=
  ((l.dropWhile Char.isWhitespace).reverse.dropWhile Char.isWhitespace).reverse

/-- `cleanText` from `LiveSession`: if the text starts with the thought
marker, show only what follows the delimiter (trimmed), or nothing when no
delimiter has been seen yet; other text passes through unchanged. String
operations are modelled on the character sequence (`String.data`). -/
def cleanText (text : String) : String :=
  if thoughtMarker.data.isPrefixOf text.data then
    match afterFirst thoughtDelim.data text.data with
    | some rest => ⟨trimChars rest⟩
    | none => ""
  else text

inductive Role
  | user
  | model
  deriving DecidableEq

structure ChatMessage where
  id : String
  role : Role
  text : String
  isPartial : Bool
  deriving DecidableEq

/-- JS truthiness of `msg.serverContent?.inputTranscription?.text`:
absent or empty strings are falsy. -/
def truthy : Option String → Bool
  | none => false
  | some s => !s.isEmpty

/-- The `inputTrans` branch of the updater: extend a trailing partial user
message in place, otherwise push a fresh partial user message. -/
def appendUser (frag uid : String) (msgs : List ChatMessage) : List ChatMessage :=
  match msgs.getLast? with
  | some last =>
      if last.role = Role.user ∧ last.isPartial = true then
        msgs.dropLast ++ [{ last with text := last.text ++ frag }]
      else
        msgs ++ [⟨uid, Role.user, frag, true⟩]
  | none => msgs ++ [⟨uid, Role.user, frag, true⟩]

/-- The `outputTrans` branch of the updater: extend a trailing partial model
message in place and re-clean the accumulated text, otherwise push a fresh
partial model message with the cleaned fragment. -/
def appendModel (frag mid : String) (msgs : List ChatMessage) : List ChatMessage :=
  match msgs.getLast? with
  | some last =>
      if last.role = Role.model ∧ last.isPartial = true then
        msgs.dropLast ++ [{ last with text := cleanText (last.text ++ frag) }]
      else
        msgs ++ [⟨mid, Role.model, cleanText frag, true⟩]
  | none => msgs ++ [⟨mid, Role.model, cleanText frag, true⟩]

/-- The `turnComplete` branch of the updater: clear the partial flag of the
trailing message, if any. -/
def finalizeLast (msgs : List ChatMessage) : List ChatMessage :=
  match msgs.getLast? with
  | some last => msgs.dropLast ++ [{ last with isPartial := false }]
  | none => msgs

def applyIn (inT : Option String) (uid : String) (msgs : List ChatMessage) :
    List ChatMessage :=
  if truthy inT then appendUser (inT.getD "") uid msgs else msgs

def applyOut (outT : Option String) (mid : String) (msgs : List ChatMessage) :
    List ChatMessage :=
  if truthy outT then appendModel (outT.getD "") mid msgs else msgs

def applyTC (turnComplete : Bool) (msgs : List ChatMessage) : List ChatMessage :=
  if turnComplete then finalizeLast msgs else msgs

/-- The whole `setMessages` updater body, run in source order:
input transcription, then output transcription, then finalization. -/
def applyTranscript (inT outT : Option String) (turnComplete : Bool)
    (uid mid : String) (msgs : List ChatMessage) : List ChatMessage :=
  applyTC turnComplete (applyOut outT mid (applyIn inT uid msgs))

/-- Message-list effect of one `onmessage` call: the updater only runs under
the guard `if (inputTrans || outputTrans)`. -/
def onMessageMsgs (inT outT : Option String) (turnComplete : Bool)
    (uid mid : String) (msgs : List ChatMessage) : List ChatMessage :=
  if truthy inT || truthy outT then applyTranscript inT outT turnComplete uid mid msgs
  else msgs

/-- Turn-counter effect of one `onmessage` call:
`if (turnComplete) setTurnCount(prev => prev + 1)`. -/
def onMessageTurnCount (turnComplete : Bool) (turnCount : ℕ) : ℕ :=
  if turnComplete then turnCount + 1 else turnCount

/-- The visible text of the trailing model message after a stream of model
transcript fragments arriving with no prior partial model message: the first
fragment is pushed cleaned, each later fragment is appended to the stored
text and the result re-cleaned (exactly what the updater stores). -/
def visibleModelText (frags : List String) : String :=
  match frags with
  | [] => ""
  | f :: fs => fs.foldl (fun cur frag => cleanText (cur ++ frag)) (cleanText f)

/-- Concatenation of a fragment stream in arrival order. -/
def concatAll : List String → String
  | [] => ""
  | f :: fs => f ++ concatAll fs

/-- A run of `onmessage` calls each carrying one user transcription fragment
and nothing else. -/
def feedUser (uid : String) (msgs : List ChatMessage) (frags : List String) :
    List ChatMessage :=
  frags.foldl (fun m f => onMessageMsgs (some f) none false uid uid m) msgs

/-! ### Completion gate -/

/-- `const canComplete = turnCount >= 3`. -/
def canComplete (turnCount : ℕ) : Bool := decide (turnCount ≥ 3)

/-- The Complete Lesson button's `disabled={!canComplete}`. -/
def completeButtonDisabled (turnCount : ℕ) : Bool := !canComplete turnCount

/-! ### Playback scheduling (`nextStartTime`, `sourcesRef`) -/

/-- The scheduler's state: the `nextStartTime` cursor and the set of
currently scheduled, not-yet-finished segments as (start, duration) pairs. -/
structure SchedState where
  nextStartTime : ℚ
  active : List (ℚ × ℚ)
  deriving DecidableEq

/-- Scheduling one decoded buffer in `onmessage`: catch the cursor up to the
output clock if it fell behind, start the source at the cursor, advance the
cursor by the buffer's duration, and register the source. Returns the
committed start time together with the new state. -/
def enqueue (s : SchedState) (clock dur : ℚ) : ℚ × SchedState :=
  let start := if s.nextStartTime < clock then clock else s.nextStartTime
  (start, ⟨start + dur, s.active ++ [(start, dur)]⟩)

/-- The `interrupted` branch of `onmessage`: stop every registered source,
clear the set, reset `nextStartTime` to 0. -/
def handleInterrupted (_s : SchedState) : SchedState := ⟨0, []⟩

/-- Start times committed for a run of enqueues, threading the cursor:
element i is the start time of buffer i when the output clock reads
`(reqs.get i).1` at that enqueue and the buffer lasts `(reqs.get i).2`. -/
def schedList (nextStart : ℚ) : List (ℚ × ℚ) → List ℚ
  | [] => []
  | (clock, dur) :: rest =>
      let start := if nextStart < clock then clock else nextStart
      start :: schedList (start + dur) rest

/-! ### Watchdog over the `isThinking` flag

The `useEffect` with dependency `[isThinking]` arms a 4000 ms timeout when
the flag turns true and clears the pending timeout when the flag changes;
`triggerModel` sends one wake stimulus and sets the flag. Setting the flag
to its current value re-runs nothing (the effect's dependency is unchanged),
which `setThinking` mirrors. -/

structure WatchState where
  thinking : Bool
  deadline : Option ℕ
  wakes : ℕ
  deriving DecidableEq

def watchdogMs : ℕ := 4000

/-- Net effect of a batched `setIsThinking b` at time `now`: when the value
changes, the effect cleanup clears the pending timeout and the re-run arms a
new one exactly when the flag is now true. -/
def setThinking (b : Bool) (now : ℕ) (s : WatchState) : WatchState :=
  if b = s.thinking then s
  else ⟨b, if b then some (now + watchdogMs) else none, s.wakes⟩

/-- `triggerModel`: send one wake stimulus, then `setIsThinking(true)`. -/
def triggerModel (now : ℕ) (s : WatchState) : WatchState :=
  setThinking true now ⟨s.thinking, s.deadline, s.wakes + 1⟩

/-- The armed timeout firing at its deadline: the timeout is consumed, then
the callback re-runs `triggerModel`. -/
def fireTimer (now : ℕ) (s : WatchState) : WatchState :=
  if s.deadline = some now then triggerModel now ⟨s.thinking, none, s.wakes⟩ else s

/-- Net effect of one inbound message on the thinking flag (audio,
interruption and turn-complete set it false; input transcription sets it
true inside the updater; output transcription leaves it untouched). -/
def stepMsg (hasAudio interrupted hasInTrans _hasOutTrans : Bool)
    (turnComplete : Bool) (now : ℕ) (s : WatchState) : WatchState :=
  let target :=
    if hasInTrans then true
    else if hasAudio || interrupted || turnComplete then false
    else s.thinking
  setThinking target now s

/-! ### Mic gating and handler installation order

`LiveSession` installs `processor.onaudioprocess` inside `onopen` (after the
microphone is acquired), with `isMicOn` captured from the mount render's
closure. A second effect (lines 295-306) would replace the handler with one
reading `isMicOnRef.current`, but its dependency list is empty: it runs once
at mount, when `scriptProcessorRef.current` is still null. -/

inductive MicHandler
  | stale (captured : Bool)
  | viaRef
  deriving DecidableEq

structure MicState where
  isMicOn : Bool
  micRef : Bool
  handler : Option MicHandler
  deriving DecidableEq

/-- At mount: `useState(true)`, `useRef(isMicOn)`, no processor yet. -/
def initialMicState : MicState := ⟨true, true, none⟩

/-- The one-shot effect of lines 295-306: replace the handler with the
ref-reading one — only if a processor already exists. -/
def installFixEffect (s : MicState) : MicState :=
  match s.handler with
  | some _ => ⟨s.isMicOn, s.micRef, some MicHandler.viaRef⟩
  | none => s

def afterMount : MicState := installFixEffect initialMicState

/-- `onopen` creates the processor and installs the capture handler whose
closure captured `isMicOn` from the render in which the session effect ran. -/
def sessionOpen (s : MicState) (renderMicOn : Bool) : MicState :=
  ⟨s.isMicOn, s.micRef, some (MicHandler.stale renderMicOn)⟩

def afterOpen : MicState := sessionOpen afterMount initialMicState.isMicOn

/-- The mic button: `setIsMicOn(!isMicOn)`, and the `[isMicOn]` effect syncs
`isMicOnRef.current`. -/
def toggleMic (s : MicState) : MicState :=
  ⟨!s.isMicOn, !s.isMicOn, s.handler⟩

/-- Whether a captured frame is forwarded to the outbound channel by the
currently installed `onaudioprocess` handler. -/
def frameSent (s : MicState) : Bool :=
  match s.handler with
  | none => false
  | some (MicHandler.stale captured) => captured
  | some MicHandler.viaRef => s.micRef

/-! ### `handleSessionComplete` (App) -/

structure Progress where
  completedSteps : List String
  completedSubjects : List String
  deriving DecidableEq

/-- `handleSessionComplete` of `App`: push the composite step id when absent,
and push the subject id when the completed step's order is 6 and it is absent. -/
def handleSessionComplete (p : Progress) (subjectId stepId : String)
    (stepOrder : ℕ) : Progress :=
  let compositeId := subjectId ++ "-" ++ stepId
  let newSteps :=
    if p.completedSteps.contains compositeId then p.completedSteps
    else p.completedSteps ++ [compositeId]
  let newSubjects :=
    if stepOrder = 6 then
      if p.completedSubjects.contains subjectId then p.completedSubjects
      else p.completedSubjects ++ [subjectId]
    else p.completedSubjects
  ⟨newSteps, newSubjects⟩

/-! ### `isUnlocked` (LessonMap) -/

structure StepRef where
  subjectId : String
  stepId : String
  deriving DecidableEq

/-- `isCompleted` of `LessonMap`. -/
def isCompleted (completedSteps : List String) (subjectId stepId : String) : Bool :=
  completedSteps.contains (subjectId ++ "-" ++ stepId)

/-- `isUnlocked` of `LessonMap`; `none` models the out-of-range access
`allSteps[index - 1]` (undefined in JS). -/
def isUnlocked (allSteps : List StepRef) (completedSteps : List String)
    (index : ℕ) : Option Bool :=
  if index = 0 then some true
  else (allSteps.get? (index - 1)).map fun p =>
    isCompleted completedSteps p.subjectId p.stepId

/-! ### Helper lemmas about the transcript updater

Each updater operation either leaves the list alone, pushes one message at
the end, or rewrites the last entry in place; `StepOk` captures what that
preserves, `ExtendsNE` tracks proper extensions of the original list. -/

theorem mutListTake {α : Type} (l : List α) (x : α) (k : ℕ) (h : k < l.length) :
    (l.dropLast ++ [x]).take k = l.take k := by
  have hk : k ≤ l.length - 1 := Nat.le_pred_of_lt h
  rw [List.take_append_of_le_length (by simpa using hk), List.dropLast_eq_take,
    List.take_take, min_eq_left hk]

theorem mutListLength {α : Type} (l : List α) (x : α) (h : l ≠ []) :
    (l.dropLast ++ [x]).length = l.length := by
  have h1 := List.length_pos.mpr h
  simp only [List.length_append, List.length_dropLast, List.length_cons,
    List.length_nil]
  omega

/-- One updater operation keeps every entry below the old last index and
never shortens the list. -/
def StepOk (l out : List ChatMessage) : Prop :=
  (∀ k, k < l.length → out.take k = l.take k) ∧ l.length ≤ out.length

theorem stepOk_of_shape {l out : List ChatMessage}
    (h : out = l ∨ (∃ x, out = l ++ [x]) ∨ (l ≠ [] ∧ ∃ x, out = l.dropLast ++ [x])) :
    StepOk l out := by
  rcases h with rfl | ⟨x, rfl⟩ | ⟨hne, x, rfl⟩
  · exact ⟨fun _ _ => rfl, le_refl _⟩
  · exact ⟨fun k hk => List.take_append_of_le_length hk.le, by simp⟩
  · exact ⟨fun k hk => mutListTake l x k hk, le_of_eq (mutListLength l x hne).symm⟩

theorem stepOk_trans {l m out : List ChatMessage}
    (h1 : StepOk l m) (h2 : StepOk m out) : StepOk l out :=
  ⟨fun k hk => (h2.1 k (lt_of_lt_of_le hk h1.2)).trans (h1.1 k hk),
    le_trans h1.2 h2.2⟩

theorem getLast?_some_ne_nil {l : List ChatMessage} {last : ChatMessage}
    (hl : l.getLast? = some last) : l ≠ [] := by
  intro h
  rw [h] at hl
  simp at hl

theorem appendUser_shape (f uid : String) (l : List ChatMessage) :
    (∃ x, appendUser f uid l = l ++ [x]) ∨
    (l ≠ [] ∧ ∃ x, appendUser f uid l = l.dropLast ++ [x]) := by
  unfold appendUser
  cases hl : l.getLast? with
  | none => exact Or.inl ⟨_, rfl⟩
  | some last =>
      dsimp only
      split_ifs with hc
      · exact Or.inr ⟨getLast?_some_ne_nil hl, _, rfl⟩
      · exact Or.inl ⟨_, rfl⟩

theorem appendModel_shape (f mid : String) (l : List ChatMessage) :
    (∃ x, appendModel f mid l = l ++ [x]) ∨
    (l ≠ [] ∧ ∃ x, appendModel f mid l = l.dropLast ++ [x]) := by
  unfold appendModel
  cases hl : l.getLast? with
  | none => exact Or.inl ⟨_, rfl⟩
  | some last =>
      dsimp only
      split_ifs with hc
      · exact Or.inr ⟨getLast?_some_ne_nil hl, _, rfl⟩
      · exact Or.inl ⟨_, rfl⟩

theorem finalizeLast_shape (l : List ChatMessage) :
    finalizeLast l = l ∨ (l ≠ [] ∧ ∃ x, finalizeLast l = l.dropLast ++ [x]) := by
  unfold finalizeLast
  cases hl : l.getLast? with
  | none => exact Or.inl rfl
  | some last => exact Or.inr ⟨getLast?_some_ne_nil hl, _, rfl⟩

theorem stepOk_appendUser (f uid : String) (l : List ChatMessage) :
    StepOk l (appendUser f uid l) := by
  rcases appendUser_shape f uid l with h | h
  · exact stepOk_of_shape (Or.inr (Or.inl h))
  · exact stepOk_of_shape (Or.inr (Or.inr h))

theorem stepOk_appendModel (f mid : String) (l : List ChatMessage) :
    StepOk l (appendModel f mid l) := by
  rcases appendModel_shape f mid l with h | h
  · exact stepOk_of_shape (Or.inr (Or.inl h))
  · exact stepOk_of_shape (Or.inr (Or.inr h))

theorem stepOk_finalizeLast (l : List ChatMessage) : StepOk l (finalizeLast l) := by
  rcases finalizeLast_shape l with h | h
  · exact stepOk_of_shape (Or.inl h)
  · exact stepOk_of_shape (Or.inr (Or.inr h))

theorem stepOk_onMessageMsgs (inT outT : Option String) (tc : Bool)
    (uid mid : String) (msgs : List ChatMessage) :
    StepOk msgs (onMessageMsgs inT outT tc uid mid msgs) := by
  unfold onMessageMsgs
  split_ifs with hg
  · unfold applyTranscript
    have s1 : StepOk msgs (applyIn inT uid msgs) := by
      unfold applyIn
      split_ifs
      · exact stepOk_appendUser _ _ _
      · exact stepOk_of_shape (Or.inl rfl)
    have s2 : StepOk (applyIn inT uid msgs)
        (applyOut outT mid (applyIn inT uid msgs)) := by
      unfold applyOut
      split_ifs
      · exact stepOk_appendModel _ _ _
      · exact stepOk_of_shape (Or.inl rfl)
    have s3 : StepOk (applyOut outT mid (applyIn inT uid msgs))
        (applyTC tc (applyOut outT mid (applyIn inT uid msgs))) := by
      unfold applyTC
      split_ifs
      · exact stepOk_finalizeLast _
      · exact stepOk_of_shape (Or.inl rfl)
    exact stepOk_trans s1 (stepOk_trans s2 s3)
  · exact stepOk_of_shape (Or.inl rfl)

/-- The updated list extends the original by at least one pushed message. -/
def ExtendsNE (l out : List ChatMessage) : Prop :=
  ∃ rest, rest ≠ [] ∧ out = l ++ rest

theorem extendsNE_push {l m : List ChatMessage} (hm : ExtendsNE l m)
    (x : ChatMessage) : ExtendsNE l (m ++ [x]) := by
  obtain ⟨rest, hne, rfl⟩ := hm
  exact ⟨rest ++ [x], by simp, by rw [List.append_assoc]⟩

theorem extendsNE_mut {l m : List ChatMessage} (hm : ExtendsNE l m)
    (x : ChatMessage) : ExtendsNE l (m.dropLast ++ [x]) := by
  obtain ⟨rest, hne, rfl⟩ := hm
  refine ⟨rest.dropLast ++ [x], by simp, ?_⟩
  rw [List.dropLast_append_of_ne_nil _ hne, List.append_assoc]

theorem extendsNE_appendModel {l m : List ChatMessage} (hm : ExtendsNE l m)
    (f mid : String) : ExtendsNE l (appendModel f mid m) := by
  rcases appendModel_shape f mid m with ⟨x, h⟩ | ⟨hne, x, h⟩
  · rw [h]
    exact extendsNE_push hm x
  · rw [h]
    exact extendsNE_mut hm x

theorem extendsNE_finalizeLast {l m : List ChatMessage} (hm : ExtendsNE l m) :
    ExtendsNE l (finalizeLast m) := by
  rcases finalizeLast_shape m with h | ⟨hne, x, h⟩
  · rw [h]
    exact hm
  · rw [h]
    exact extendsNE_mut hm x

theorem appendUser_push_of_final {l : List ChatMessage} {last : ChatMessage}
    (f uid : String) (hl : l.getLast? = some last) (hf : last.isPartial = false) :
    appendUser f uid l = l ++ [⟨uid, Role.user, f, true⟩] := by
  simp [appendUser, hl, hf]

theorem appendModel_push_of_final {l : List ChatMessage} {last : ChatMessage}
    (f mid : String) (hl : l.getLast? = some last) (hf : last.isPartial = false) :
    appendModel f mid l = l ++ [⟨mid, Role.model, cleanText f, true⟩] := by
  simp [appendModel, hl, hf]

theorem extendsNE_applyTranscript {msgs : List ChatMessage} {last : ChatMessage}
    (inT outT : Option String) (tc : Bool) (uid mid : String)
    (hl : msgs.getLast? = some last) (hf : last.isPartial = false)
    (hg : (truthy inT || truthy outT) = true) :
    ExtendsNE msgs (applyTranscript inT outT tc uid mid msgs) := by
  unfold applyTranscript
  have step2 : ∀ m, ExtendsNE msgs m → ExtendsNE msgs (applyOut outT mid m) := by
    intro m hm
    unfold applyOut
    split_ifs
    · exact extendsNE_appendModel hm _ _
    · exact hm
  have step3 : ∀ m, ExtendsNE msgs m → ExtendsNE msgs (applyTC tc m) := by
    intro m hm
    unfold applyTC
    split_ifs
    · exact extendsNE_finalizeLast hm
    · exact hm
  cases hin : truthy inT with
  | false =>
      have hout : truthy outT = true := by simpa [hin] using hg
      have h1 : applyIn inT uid msgs = msgs := by simp [applyIn, hin]
      have h2 : applyOut outT mid msgs = appendModel (outT.getD "") mid msgs := by
        simp [applyOut, hout]
      have h3 : ExtendsNE msgs (appendModel (outT.getD "") mid msgs) := by
        rw [appendModel_push_of_final _ _ hl hf]
        exact ⟨_, by simp, rfl⟩
      rw [h1]
      apply step3
      rw [h2]
      exact h3
  | true =>
      have h1 : applyIn inT uid msgs = appendUser (inT.getD "") uid msgs := by
        simp [applyIn, hin]
      have h2 : ExtendsNE msgs (appendUser (inT.getD "") uid msgs) := by
        rw [appendUser_push_of_final _ _ hl hf]
        exact ⟨_, by simp, rfl⟩
      rw [h1]
      exact step3 _ (step2 _ h2)

theorem appendUser_ne_nil (f uid : String) (l : List ChatMessage) :
    appendUser f uid l ≠ [] := by
  rcases appendUser_shape f uid l with ⟨x, h⟩ | ⟨hne, x, h⟩ <;> rw [h] <;> simp

theorem appendModel_ne_nil (f mid : String) (l : List ChatMessage) :
    appendModel f mid l ≠ [] := by
  rcases appendModel_shape f mid l with ⟨x, h⟩ | ⟨hne, x, h⟩ <;> rw [h] <;> simp

theorem finalizeLast_last_final (l : List ChatMessage) (h : l ≠ []) :
    ∃ last, (finalizeLast l).getLast? = some last ∧ last.isPartial = false := by
  unfold finalizeLast
  cases hl : l.getLast? with
  | none =>
      exact absurd (by simpa using hl) h
  | some last =>
      dsimp only
      exact ⟨_, List.getLast?_concat _, rfl⟩

theorem truthy_some_of_ne {f : String} (hf : ¬f = "") : truthy (some f) = true := by
  show (!f.isEmpty) = true
  cases he : f.isEmpty
  · rfl
  · exact absurd ((String.isEmpty_iff f).mp he) hf

theorem feedUser_append (uid : String) :
    ∀ (frags : List String) (msgs : List ChatMessage) (last : ChatMessage),
    (∀ f ∈ frags, ¬f = "") → msgs.getLast? = some last →
    last.role = Role.user → last.isPartial = true →
    feedUser uid msgs frags
      = msgs.dropLast ++ [{ last with text := last.text ++ concatAll frags }] := by
  intro frags
  induction frags with
  | nil =>
      intro msgs last _ hl _ _
      have hx : ({ last with text := last.text ++ concatAll [] } : ChatMessage)
          = last := by
        show ({ last with text := last.text ++ "" } : ChatMessage) = last
        rw [String.append_empty]
      rw [hx, List.dropLast_append_getLast? last hl]
      rfl
  | cons f fs ih =>
      intro msgs last hne hl hr hp
      have hf : ¬f = "" := hne f (by simp)
      have htr : truthy (some f) = true := truthy_some_of_ne hf
      have htn : truthy (none : Option String) = false := rfl
      have hstep : onMessageMsgs (some f) none false uid uid msgs
          = msgs.dropLast ++ [{ last with text := last.text ++ f }] := by
        simp [onMessageMsgs, htr, htn, applyTranscript, applyTC, applyOut, applyIn,
          appendUser, hl, hr, hp]
      have hlast : (msgs.dropLast ++ [{ last with text := last.text ++ f }]).getLast?
          = some { last with text := last.text ++ f } := List.getLast?_concat _
      have ihr := ih (msgs.dropLast ++ [{ last with text := last.text ++ f }])
        { last with text := last.text ++ f }
        (fun g hg => hne g (List.mem_cons_of_mem f hg)) hlast hr hp
      have hunfold : feedUser uid msgs (f :: fs)
          = feedUser uid (onMessageMsgs (some f) none false uid uid msgs) fs := rfl
      rw [hunfold, hstep, ihr, List.dropLast_concat, String.append_assoc]
      rfl

/-! ## Claims -/

/-- Claim C1 (code bug, concrete evaluation): the one-shot effect that would
install the ref-reading capture handler runs at mount, when no script
processor exists, so it installs nothing; the handler installed at session
open keeps the closure value captured at mount (mic on). After the user
toggles the mic off, a captured frame is still sent, although the
ref-reading handler (had it been installed) would discard it. -/
theorem micGate_stale_closure_bug :
    afterMount.handler = none ∧
    (toggleMic afterOpen).isMicOn = false ∧
    frameSent (toggleMic afterOpen) = true ∧
    frameSent ⟨(toggleMic afterOpen).isMicOn, (toggleMic afterOpen).micRef,
      some MicHandler.viaRef⟩ = false := by
  decide

/-- Claim C2 (counterexample): with a wake stimulus sent at time 0, a model
transcript fragment arriving at 3.9 s does not cancel the pending watchdog
timer (the deadline is still armed for 4.0 s); the timer then fires and a
duplicate wake stimulus is sent (wakes reaches 2); and after firing no new
timer is armed (the timer does not restart). -/
theorem watchdog_fragment_counterexample :
    (stepMsg false false false true false 3900
      (triggerModel 0 ⟨false, none, 0⟩)).deadline = some 4000 ∧
    (fireTimer 4000 (stepMsg false false false true false 3900
      (triggerModel 0 ⟨false, none, 0⟩))).wakes = 2 ∧
    (fireTimer 4000 (stepMsg false false false true false 3900
      (triggerModel 0 ⟨false, none, 0⟩))).deadline = none := by
  decide

/-- Claim C2 (amended): entering the thinking state arms a 4000 ms timer;
model audio, an interruption or a turn-complete signal (but not a model
transcript fragment, which leaves the state unchanged) cancels the pending
timer without sending a duplicate wake stimulus; when the timer fires,
exactly one additional wake stimulus is sent and no new timer is armed
until the thinking flag is cleared and set again. -/
theorem watchdog_amended :
    ∀ (s : WatchState) (now : ℕ) (a i o tc : Bool),
    (s.thinking = false →
      (setThinking true now s).deadline = some (now + watchdogMs) ∧
      (setThinking true now s).thinking = true) ∧
    (s.thinking = true → (a || i || tc) = true →
      (stepMsg a i false o tc now s).deadline = none ∧
      (stepMsg a i false o tc now s).wakes = s.wakes) ∧
    stepMsg false false false o false now s = s ∧
    (s.thinking = true → s.deadline = some now →
      (fireTimer now s).wakes = s.wakes + 1 ∧ (fireTimer now s).deadline = none) := by
  intro s now a i o tc
  refine ⟨?_, ?_, ?_, ?_⟩
  · intro h
    simp [setThinking, h]
  · intro h hd
    constructor <;> simp [stepMsg, setThinking, h, hd]
  · simp [stepMsg, setThinking]
  · intro h hd
    constructor <;> simp [fireTimer, triggerModel, setThinking, h, hd]

/-- Claim C2 witness: from the post-stimulus state (thinking, timer armed at
4000, one wake sent) with nothing arriving, the timer fires at 4000: one
additional wake stimulus, and no timer left armed. -/
theorem watchdog_amended_witness :
    (fireTimer 4000 ⟨true, some 4000, 1⟩).wakes = 1 + 1 ∧
    (fireTimer 4000 ⟨true, some 4000, 1⟩).deadline = none :=
  (watchdog_amended ⟨true, some 4000, 1⟩ 4000 false false false false).2.2.2 rfl rfl

/-- Claim C3 (code bug, concrete evaluation): the updater stores the cleaned
text and re-cleans on each append, so once a thought-opening fragment has
been blanked the marker is lost and later pre-delimiter text is shown raw:
for the fragment stream `["🧠 thought", " SECRET <ctrl95>Bom dia"]` the
visible message is `" SECRET <ctrl95>Bom dia"`, not `"Bom dia"`. Only when
the delimiter arrives inside the first cleaned text does stripping work
(third conjunct). -/
theorem cleanText_leaks_thought :
    visibleModelText ["🧠 thought", " SECRET <ctrl95>Bom dia"]
      = " SECRET <ctrl95>Bom dia" ∧
    visibleModelText ["🧠 thought", " SECRET <ctrl95>Bom dia"] ≠ "Bom dia" ∧
    visibleModelText ["🧠 thought SECRET <ctrl95>Bom dia"] = "Bom dia" := by
  decide

/-- Claim C4 (counterexample): a message carrying a turn-complete signal but
no transcription text increments the counter yet leaves the message list —
and hence the trailing message's partial flag — unchanged, because the
updater only runs under the `inputTrans || outputTrans` guard. -/
theorem turnComplete_no_text_counterexample :
    onMessageMsgs none none true "u" "m" [⟨"1", Role.user, "hi", true⟩]
      = [⟨"1", Role.user, "hi", true⟩] ∧
    (⟨"1", Role.user, "hi", true⟩ : ChatMessage).isPartial = true ∧
    onMessageTurnCount true 0 = 1 := by
  decide

/-- Claim C4 (amended): every turn-complete signal increments the counter by
exactly one; when the message also carries transcription text, the trailing
message of the updated list ends finalized; when it carries none, the
message list (and so the trailing partial flag) is left unchanged. -/
theorem turnComplete_amended :
    ∀ (inT outT : Option String) (n : ℕ) (uid mid : String) (msgs : List ChatMessage),
    onMessageTurnCount true n = n + 1 ∧
    onMessageTurnCount false n = n ∧
    ((truthy inT || truthy outT) = true →
      ∃ last, (onMessageMsgs inT outT true uid mid msgs).getLast? = some last ∧
        last.isPartial = false) ∧
    ((truthy inT || truthy outT) = false →
      onMessageMsgs inT outT true uid mid msgs = msgs) := by
  intro inT outT n uid mid msgs
  refine ⟨rfl, rfl, ?_, ?_⟩
  · intro hg
    have hne : applyOut outT mid (applyIn inT uid msgs) ≠ [] := by
      cases hout : truthy outT with
      | false =>
          have hin : truthy inT = true := by simpa [hout] using hg
          have h1 : applyIn inT uid msgs = appendUser (inT.getD "") uid msgs := by
            simp [applyIn, hin]
          have h2 : applyOut outT mid (applyIn inT uid msgs)
              = applyIn inT uid msgs := by
            simp [applyOut, hout]
          rw [h2, h1]
          exact appendUser_ne_nil _ _ _
      | true =>
          have h2 : applyOut outT mid (applyIn inT uid msgs)
              = appendModel (outT.getD "") mid (applyIn inT uid msgs) := by
            simp [applyOut, hout]
          rw [h2]
          exact appendModel_ne_nil _ _ _
    have hrw : onMessageMsgs inT outT true uid mid msgs
        = finalizeLast (applyOut outT mid (applyIn inT uid msgs)) := by
      simp [onMessageMsgs, hg, applyTranscript, applyTC]
    rw [hrw]
    exact finalizeLast_last_final _ hne
  · intro hg
    simp [onMessageMsgs, hg]

/-- Claim C4 witness: a turn-complete arriving with the user fragment "hi"
on an empty transcript leaves a finalized trailing message. -/
theorem turnComplete_amended_witness :
    ∃ last, (onMessageMsgs (some "hi") none true "u" "m" []).getLast? = some last ∧
      last.isPartial = false :=
  (turnComplete_amended (some "hi") none 0 "u" "m" []).2.2.1 (by decide)

/-- Claim C5 (counterexample): two buffers of duration 1 enqueued with the
output clock at 0 and then at 5 (the scheduler fell behind with no
interruption in between) start at 0 and 5: the second start is not the first
start plus the first duration (which would be 1). -/
theorem gapless_counterexample :
    schedList 0 [(0, 1), (5, 1)] = [0, 5] ∧ ((5 : ℚ) ≠ 0 + 1) := by
  constructor
  · norm_num [schedList]
  · norm_num

/-- Claim C5 (amended): each enqueue schedules at
`max nextStartTime clock` (the cursor is first caught up to the clock when
behind) and advances the cursor by the buffer's duration; consequently the
next buffer starts exactly at the previous start plus its duration whenever
the clock has not passed that point, and never earlier than it (segments
never overlap). -/
theorem enqueue_amended :
    ∀ (st : SchedState) (c1 d1 c2 d2 : ℚ),
    (enqueue st c1 d1).1 = max st.nextStartTime c1 ∧
    (enqueue st c1 d1).2.nextStartTime = (enqueue st c1 d1).1 + d1 ∧
    (c2 ≤ (enqueue st c1 d1).1 + d1 →
      (enqueue (enqueue st c1 d1).2 c2 d2).1 = (enqueue st c1 d1).1 + d1) ∧
    (enqueue st c1 d1).1 + d1 ≤ (enqueue (enqueue st c1 d1).2 c2 d2).1 := by
  intro st c1 d1 c2 d2
  have h2 : (enqueue st c1 d1).2.nextStartTime = (enqueue st c1 d1).1 + d1 := rfl
  have h3 : ∀ (s : SchedState) (c d : ℚ), c ≤ s.nextStartTime →
      (enqueue s c d).1 = s.nextStartTime := by
    intro s c d hc
    show (if s.nextStartTime < c then c else s.nextStartTime) = s.nextStartTime
    rw [if_neg (not_lt.mpr hc)]
  have h4 : ∀ (s : SchedState) (c d : ℚ), s.nextStartTime ≤ (enqueue s c d).1 := by
    intro s c d
    show s.nextStartTime ≤ if s.nextStartTime < c then c else s.nextStartTime
    split_ifs with h
    · exact h.le
    · exact le_refl _
  refine ⟨?_, h2, ?_, ?_⟩
  · show (if st.nextStartTime < c1 then c1 else st.nextStartTime)
      = max st.nextStartTime c1
    split_ifs with h
    · exact (max_eq_right h.le).symm
    · exact (max_eq_left (not_lt.mp h)).symm
  · intro hc
    exact (h3 (enqueue st c1 d1).2 c2 d2 (by rw [h2]; exact hc)).trans h2
  · have h5 := h4 (enqueue st c1 d1).2 c2 d2
    rw [h2] at h5
    exact h5

/-- Claim C5 witness: enqueue at clock 0 with duration 1, then enqueue with
the clock at 1 (not past the previous end): the second buffer starts exactly
at the first start plus 1. -/
theorem enqueue_amended_witness :
    (enqueue (enqueue ⟨0, []⟩ 0 1).2 1 1).1 = (enqueue (⟨0, []⟩ : SchedState) 0 1).1 + 1 :=
  (enqueue_amended ⟨0, []⟩ 0 1 1 1).2.2.1 (by norm_num [enqueue])

/-- Claim C6: handling an `interrupted` event empties the active segment set
and resets `nextStartTime` to 0, whatever was playing; a subsequent enqueue
at a non-negative clock time schedules exactly at the clock. -/
theorem interrupted_flush :
    ∀ (s : SchedState) (clock dur : ℚ),
    (handleInterrupted s).active = [] ∧
    (handleInterrupted s).nextStartTime = 0 ∧
    (0 ≤ clock → (enqueue (handleInterrupted s) clock dur).1 = clock) := by
  intro s clock dur
  refine ⟨rfl, rfl, ?_⟩
  intro h
  rcases lt_or_eq_of_le h with h1 | h1
  · simp [enqueue, handleInterrupted, h1]
  · simp [enqueue, handleInterrupted, ← h1]

/-- Claim C6 witness: with three segments still playing, handling the
interruption leaves zero active segments, a zero cursor, and an enqueue at
clock 5 starts at 5. -/
theorem interrupted_flush_witness :
    (handleInterrupted ⟨6, [(0, 2), (2, 2), (4, 2)]⟩).active = [] ∧
    (handleInterrupted ⟨6, [(0, 2), (2, 2), (4, 2)]⟩).nextStartTime = 0 ∧
    (enqueue (handleInterrupted ⟨6, [(0, 2), (2, 2), (4, 2)]⟩) 5 1).1 = 5 := by
  have h := interrupted_flush ⟨6, [(0, 2), (2, 2), (4, 2)]⟩ 5 1
  exact ⟨h.1, h.2.1, h.2.2 (by norm_num)⟩

/-- Claim C7: the completion predicate is false exactly at turn counts 0, 1
and 2 and true from 3 on; the button is disabled whenever it is false; and
three turn-complete signals from zero reach a permitting count. -/
theorem canComplete_gate :
    (canComplete 0 = false ∧ canComplete 1 = false ∧ canComplete 2 = false) ∧
    (∀ n : ℕ, 3 ≤ n → canComplete n = true) ∧
    (∀ n : ℕ, n < 3 → canComplete n = false ∧ completeButtonDisabled n = true) ∧
    onMessageTurnCount true (onMessageTurnCount true (onMessageTurnCount true 0)) = 3 ∧
    canComplete 3 = true := by
  refine ⟨⟨rfl, rfl, rfl⟩, ?_, ?_, rfl, rfl⟩
  · intro n h
    simp [canComplete]
    omega
  · intro n h
    constructor <;> simp [canComplete, completeButtonDisabled] <;> omega

/-- Claim C7 witness: at five turns completion is permitted. -/
theorem canComplete_gate_witness : canComplete 5 = true :=
  canComplete_gate.2.1 5 (by norm_num)

/-- Claim C9: the session-completion handler is append-only and
duplicate-free: the composite id ends up present; it is appended exactly
when absent and nothing changes when present; no existing element of either
list is removed; and the subject id is appended exactly when the step's
order is 6 and it is absent. -/
theorem handleSessionComplete_progress :
    ∀ (p : Progress) (subjectId stepId : String) (stepOrder : ℕ),
    (subjectId ++ "-" ++ stepId)
      ∈ (handleSessionComplete p subjectId stepId stepOrder).completedSteps ∧
    (p.completedSteps.contains (subjectId ++ "-" ++ stepId) = true →
      (handleSessionComplete p subjectId stepId stepOrder).completedSteps
        = p.completedSteps) ∧
    (p.completedSteps.contains (subjectId ++ "-" ++ stepId) = false →
      (handleSessionComplete p subjectId stepId stepOrder).completedSteps
        = p.completedSteps ++ [subjectId ++ "-" ++ stepId]) ∧
    (∀ x ∈ p.completedSteps,
      x ∈ (handleSessionComplete p subjectId stepId stepOrder).completedSteps) ∧
    (∀ x ∈ p.completedSubjects,
      x ∈ (handleSessionComplete p subjectId stepId stepOrder).completedSubjects) ∧
    (stepOrder ≠ 6 →
      (handleSessionComplete p subjectId stepId stepOrder).completedSubjects
        = p.completedSubjects) ∧
    (stepOrder = 6 → p.completedSubjects.contains subjectId = false →
      (handleSessionComplete p subjectId stepId stepOrder).completedSubjects
        = p.completedSubjects ++ [subjectId]) ∧
    (stepOrder = 6 → p.completedSubjects.contains subjectId = true →
      (handleSessionComplete p subjectId stepId stepOrder).completedSubjects
        = p.completedSubjects) := by
  intro p subjectId stepId stepOrder
  refine ⟨?_, ?_, ?_, ?_, ?_, ?_, ?_, ?_⟩
  · simp only [handleSessionComplete]
    split_ifs with h
    · simpa using h
    · simp
  · intro h
    have h' : subjectId ++ "-" ++ stepId ∈ p.completedSteps := by simpa using h
    simp [handleSessionComplete, h']
  · intro h
    have h' : subjectId ++ "-" ++ stepId ∉ p.completedSteps := by simpa using h
    simp [handleSessionComplete, h']
  · intro x hx
    simp only [handleSessionComplete]
    split_ifs <;> simp [hx]
  · intro x hx
    simp only [handleSessionComplete]
    split_ifs <;> simp [hx]
  · intro h
    simp [handleSessionComplete, h]
  · intro h h2
    have h' : subjectId ∉ p.completedSubjects := by simpa using h2
    simp [handleSessionComplete, h, h']
  · intro h h2
    have h' : subjectId ∈ p.completedSubjects := by simpa using h2
    simp [handleSessionComplete, h, h']

/-- Claim C9 witness: completing step "step-2" (order 2) of subject "s" when
only "s-step-1" is recorded appends "s-step-2" and leaves the subjects
untouched. -/
theorem handleSessionComplete_witness :
    (handleSessionComplete ⟨["s-step-1"], []⟩ "s" "step-2" 2).completedSteps
      = ["s-step-1"] ++ ["s" ++ "-" ++ "step-2"] ∧
    (handleSessionComplete ⟨["s-step-1"], []⟩ "s" "step-2" 2).completedSubjects = [] := by
  have h := handleSessionComplete_progress ⟨["s-step-1"], []⟩ "s" "step-2" 2
  exact ⟨h.2.2.1 (by decide), h.2.2.2.2.2.1 (by decide)⟩

/-- Claim C8: one `onmessage` transcript update never modifies entries below
the old last index, never shortens the list, leaves a finalized trailing
message untouched (the old list survives as a prefix), and a run of user
fragments onto a trailing partial user message appends exactly their
concatenation in arrival order. -/
theorem transcript_update_invariant :
    ∀ (inT outT : Option String) (tc : Bool) (uid mid : String)
      (msgs : List ChatMessage),
    (onMessageMsgs inT outT tc uid mid msgs).take (msgs.length - 1)
      = msgs.take (msgs.length - 1) ∧
    msgs.length ≤ (onMessageMsgs inT outT tc uid mid msgs).length ∧
    (∀ last, msgs.getLast? = some last → last.isPartial = false →
      (onMessageMsgs inT outT tc uid mid msgs).take msgs.length = msgs) ∧
    (∀ frags last, (∀ f ∈ frags, ¬f = "") → msgs.getLast? = some last →
      last.role = Role.user → last.isPartial = true →
      feedUser uid msgs frags
        = msgs.dropLast ++ [{ last with text := last.text ++ concatAll frags }]) := by
  intro inT outT tc uid mid msgs
  have hok := stepOk_onMessageMsgs inT outT tc uid mid msgs
  refine ⟨?_, hok.2, ?_, ?_⟩
  · cases msgs with
    | nil => simp
    | cons a as => exact hok.1 _ (Nat.sub_lt (by simp) one_pos)
  · intro last hl hf
    unfold onMessageMsgs
    split_ifs with hg
    · obtain ⟨rest, hrne, heq⟩ :=
        extendsNE_applyTranscript inT outT tc uid mid hl hf hg
      rw [heq, List.take_left]
    · exact List.take_length msgs
  · intro frags last hne hl hr hp
    exact feedUser_append uid frags msgs last hne hl hr hp

/-- Claim C8 witness: a model fragment arriving while the trailing user
message is already finalized pushes a new message and keeps the old list as
a prefix. -/
theorem transcript_update_invariant_witness :
    (onMessageMsgs none (some "Tudo bem") true "u" "m"
      [⟨"1", Role.user, "hi", false⟩]).take 1 = [⟨"1", Role.user, "hi", false⟩] :=
  (transcript_update_invariant none (some "Tudo bem") true "u" "m"
    [⟨"1", Role.user, "hi", false⟩]).2.2.1 ⟨"1", Role.user, "hi", false⟩ rfl rfl

/-- Claim C10: the unlock rule grants index 0 unconditionally, and any
in-range index i > 0 exactly when the composite id of the step at index
i - 1 is contained in the user's completed-steps list. -/
theorem isUnlocked_rule :
    ∀ (allSteps : List StepRef) (completedSteps : List String) (i : ℕ),
    isUnlocked allSteps completedSteps 0 = some true ∧
    (0 < i → ∀ p, allSteps.get? (i - 1) = some p →
      isUnlocked allSteps completedSteps i
        = some (completedSteps.contains (p.subjectId ++ "-" ++ p.stepId))) := by
  intro allSteps completedSteps i
  refine ⟨by simp [isUnlocked], ?_⟩
  intro hi p hp
  unfold isUnlocked
  rw [if_neg (Nat.pos_iff_ne_zero.mp hi), hp]
  rfl

/-- Claim C10 witness: with the first step completed, index 1 is unlocked by
exactly the membership test on the first step's composite id. -/
theorem isUnlocked_rule_witness :
    isUnlocked [⟨"a1-intro", "step-1"⟩, ⟨"a1-intro", "step-2"⟩] ["a1-intro-step-1"] 1
      = some (List.contains ["a1-intro-step-1"] ("a1-intro" ++ "-" ++ "step-1")) :=
  (isUnlocked_rule [⟨"a1-intro", "step-1"⟩, ⟨"a1-intro", "step-2"⟩]
    ["a1-intro-step-1"] 1).2 (by decide) ⟨"a1-intro", "step-1"⟩ (by decide)

end LinguaPratikar
